import Mathlib

/-!
# Verification of the meshscanner subsystem

A shallow embedding, in Lean 4, of the concurrent network-reconnaissance
engine under `mesh_fake_ledger/meshscanner/` (files `ip_range.py`,
`cli.py`, `scanner.py`, `banner_grabber.py`, `models.py`, `storage.py`),
together with proofs of the behavioural properties stated in the
repository's specification.

Conventions of the embedding:
* Python strings are Lean `String`s / `List Char`; Python `bytes` are
  `List Nat` with every element `< 256`.
* Python `int` is `Int` (or `Nat` where the source value is provably
  non-negative, e.g. IPv4 address integers).
* I/O (socket probes, banner reads, the wall clock) is made explicit:
  the outcome of each effectful call is a parameter of the embedded
  function, so a theorem quantifying over those parameters covers every
  possible behaviour of the network.
* `async` scheduling is modelled by an explicit small-step transition
  system over task states (see the semaphore section), and the
  nondeterministic completion order of `asyncio.as_completed` by
  quantifying over all permutations of the task list.
-/

namespace MeshScanner

/-! ## Python string primitives

`splitOnChar c l` models Python's `str.split(sep)` for a one-character
separator `sep = c`: it never returns an empty list, splitting the empty
string gives `[[]]`, and adjacent separators give empty fields. -/

def splitOnChar (c : Char) : List Char → List (List Char)
  | [] => [[]]
  | a :: as =>
    if a = c then [] :: splitOnChar c as
    else
      match splitOnChar c as with
      | [] => [[a]]
      | b :: bs => (a :: b) :: bs

theorem splitOnChar_ne_nil (c : Char) (l : List Char) : splitOnChar c l ≠ [] := by
  induction l with
  | nil => simp [splitOnChar]
  | cons a as ih =>
    simp only [splitOnChar]
    split
    · simp
    · split
      · simp
      · simp

theorem splitOnChar_of_not_mem {c : Char} {l : List Char} (h : c ∉ l) :
    splitOnChar c l = [l] := by
  induction l with
  | nil => rfl
  | cons a as ih =>
    simp only [List.mem_cons, not_or] at h
    simp only [splitOnChar]
    rw [if_neg (fun hc => h.1 hc.symm), ih h.2]

theorem splitOnChar_append {c : Char} {l₁ : List Char} (l₂ : List Char)
    (h : c ∉ l₁) : splitOnChar c (l₁ ++ c :: l₂) = l₁ :: splitOnChar c l₂ := by
  induction l₁ with
  | nil =>
    simp only [List.nil_append, splitOnChar, if_pos rfl]
    cases hs : splitOnChar c l₂ with
    | nil => exact absurd hs (splitOnChar_ne_nil c l₂)
    | cons b bs => rfl
  | cons a as ih =>
    simp only [List.mem_cons, not_or] at h
    simp only [List.cons_append, splitOnChar, List.append_eq]
    rw [if_neg (fun hc => h.1 hc.symm), ih h.2]

/-- Python `str.strip()` whitespace set (ASCII fragment): space, `\t`,
`\n`, `\r`, `\x0b`, `\x0c`. -/
def pyIsSpace (c : Char) : Bool :=
  c = ' ' || c = '\t' || c = '\n' || c = '\r' || c = Char.ofNat 11 || c = Char.ofNat 12

/-- Python `str.strip()`: drop leading and trailing whitespace. -/
def pyStrip (l : List Char) : List Char :=
  (((l.dropWhile pyIsSpace).reverse).dropWhile pyIsSpace).reverse

/-- ASCII decimal digit test, Python's `_DECIMAL_DIGITS` membership. -/
def isDigitChar (c : Char) : Bool :=
  48 ≤ c.toNat && c.toNat ≤ 57

/-- Numeric value of a digit string (`int(s, 10)` for an all-digit `s`). -/
def digitsVal (l : List Char) : Nat :=
  l.foldl (fun a c => a * 10 + (c.toNat - 48)) 0

/-- The decimal digit character for `d < 10` (`str(int)` building block). -/
def digitChar (d : Nat) : Char := Char.ofNat (48 + d)

/-- Decimal representation of a natural number as Python's `str(n)`
produces it, fuelled (10 digits cover every value this development
applies it to, namely IPv4 octets `< 256`). -/
def natStrAux : Nat → Nat → List Char
  | 0, _ => []
  | fuel + 1, n => if n = 0 then [] else natStrAux fuel (n / 10) ++ [digitChar (n % 10)]

def natStr (n : Nat) : List Char :=
  if n = 0 then ['0'] else natStrAux 10 n

/-! ## `ipaddress.ip_network` — IPv4 fragment

The scanner calls the Python standard library's
`ipaddress.ip_network(cidr, strict=False)`.  We model its IPv4
dotted-quad fragment: `"a.b.c.d"` or `"a.b.c.d/p"` with a decimal
prefix length (the netmask-string, integer and IPv6 input forms are out
of the modelled fragment).  An IPv4 address is its 32-bit integer value,
a network is `(network-address, prefix-length)`. -/

/-- Python `ipaddress._parse_octet`: one to three ASCII digits, no
leading zero (except `"0"` itself), value at most 255. -/
def parseOctet (l : List Char) : Option Nat :=
  if l.isEmpty then none
  else if ¬ l.all isDigitChar then none
  else if l.length > 3 then none
  else if l.head? = some '0' ∧ l ≠ ['0'] then none
  else if digitsVal l > 255 then none
  else some (digitsVal l)

/-- Python `ipaddress.IPv4Address._ip_int_from_string`: four octets
joined by `'.'`, combined big-endian. -/
def parseIPv4 (l : List Char) : Option Nat :=
  match splitOnChar '.' l with
  | [a, b, c, d] => do
    let oa ← parseOctet a
    let ob ← parseOctet b
    let oc ← parseOctet c
    let od ← parseOctet d
    some (oa * 16777216 + ob * 65536 + oc * 256 + od)
  | _ => none

/-- Python `ipaddress._prefix_from_prefix_string` (IPv4): a non-empty
all-digit string whose value is at most 32 (leading zeros permitted,
matching `str.isdigit` + `int`). -/
def parsePrefixLen (l : List Char) : Option Nat :=
  if l.isEmpty then none
  else if ¬ l.all isDigitChar then none
  else if digitsVal l ≤ 32 then some (digitsVal l) else none

/-- `ipaddress.ip_network(s, strict=False)` on the IPv4 fragment:
split on `'/'` (at most one permitted), parse address and optional
prefix (absent prefix means `/32`), and mask away the host bits —
`strict=False` keeps the input legal even when host bits are set.
Masking `addr` to its network is `addr / 2^(32-p) * 2^(32-p)`
(arithmetically identical to `addr & mask` for the all-ones-then-zeros
netmask). -/
def ipNetworkParse (s : String) : Option (Nat × Nat) :=
  match splitOnChar '/' s.data with
  | [a] => (parseIPv4 a).map (fun ip => (ip / 2 ^ (32 - 32) * 2 ^ (32 - 32), 32))
  | [a, p] => do
    let ip ← parseIPv4 a
    let pl ← parsePrefixLen p
    some (ip / 2 ^ (32 - pl) * 2 ^ (32 - pl), pl)
  | _ => none

/-- Python `str(IPv4Address)`: the dotted quad of the four big-endian
octets. -/
def ipToString (n : Nat) : String :=
  String.mk (natStr (n / 16777216 % 256) ++ '.' ::
    (natStr (n / 65536 % 256) ++ '.' ::
      (natStr (n / 256 % 256) ++ '.' :: natStr (n % 256))))

/-- Python `IPv4Network.hosts()`: the usable hosts
`network+1 .. broadcast-1` for prefixes up to `/30`; for a `/31` both
addresses of the pair, for a `/32` the single address (CPython's
special cases for point-to-point and host routes). -/
def hostsList (net p : Nat) : List Nat :=
  if p ≤ 30 then List.range' (net + 1) (2 ^ (32 - p) - 2)
  else if p = 31 then [net, net + 1]
  else [net]

/-- The spec's name for the error `expand` surfaces on a malformed
range specification; realised in the source as the `ValueError` that
`ipaddress.ip_network` raises out of `expand_cidr`. -/
inductive InvalidRangeError
  | invalid
  deriving DecidableEq, Repr

deriving instance DecidableEq for Except

/-- `ip_range.expand_cidr(cidr, max_hosts)`: parse the network
(propagating the parse error), enumerate `network.hosts()`, and stop as
soon as the running index reaches `max_hosts` (when given), collecting
`str(host)` for each host kept.  `max_hosts` is a Python `int`; a
negative bound stops before the first host, hence `Int.toNat`. -/
def expand_cidr (cidr : String) (max_hosts : Option Int) : Except InvalidRangeError (List String) :=
  match ipNetworkParse cidr with
  | none => .error .invalid
  | some (net, p) =>
    let hosts := hostsList net p
    let kept := match max_hosts with
      | none => hosts
      | some m => hosts.take m.toNat
    .ok (kept.map ipToString)

/-! ## `cli.parse_ports`

`parse_ports` splits the port string on `','`, strips each part, drops
empty parts, and turns each remaining part into either a single port
(`int(part)`) or an inclusive range (`part.split("-", 1)`, then
`range(start, end + 1)`); the collected list is deduplicated and sorted
by `sorted(set(result))`. -/

/-- Python `int(s)` for base-10 string input (ASCII fragment): strip
whitespace, optional single sign, then digit groups separated by single
underscores (`int("1_0") = 10`, but `"_1"`, `"1_"`, `"1__0"` and `""`
all raise `ValueError`). -/
def pyIntCore (l : List Char) : Option Nat :=
  if l.isEmpty then none
  else
    let groups := splitOnChar '_' l
    if groups.all (fun g => ¬ g.isEmpty && g.all isDigitChar) then
      some (digitsVal groups.flatten)
    else none

def pyIntParse (l : List Char) : Option Int :=
  match pyStrip l with
  | '+' :: rest => (pyIntCore rest).map (fun n => (n : Int))
  | '-' :: rest => (pyIntCore rest).map (fun n => -(n : Int))
  | rest => (pyIntCore rest).map (fun n => (n : Int))

/-- Python `str.split(sep, 1)` for a one-character separator, on a
string that contains the separator: the part before the first
occurrence and everything after it.  `none` when the separator does not
occur (Python's `"-" in part` test guards the call). -/
def splitOnce (c : Char) : List Char → Option (List Char × List Char)
  | [] => none
  | a :: as =>
    if a = c then some ([], as)
    else (splitOnce c as).map (fun q => (a :: q.1, q.2))

/-- Python `range(a, b)` over `int`, as a list. -/
def intRange (a b : Int) : List Int :=
  (List.range (b - a).toNat).map (fun i => a + (i : Int))

/-- One part of the port string: a hyphenated inclusive range when it
contains `'-'` (`range(start, end + 1)`), a single port otherwise. -/
def portsOfPart (part : List Char) : Option (List Int) :=
  match splitOnce '-' part with
  | some (s, e) => do
    let a ← pyIntParse s
    let b ← pyIntParse e
    some (intRange a (b + 1))
  | none => (pyIntParse part).map (fun n => [n])

/-- Python `sorted(set(l))` for `int` elements: the strictly ascending
duplicate-free enumeration of the elements of `l`, realised by
dedup-aware insertion sort (which produces exactly that enumeration). -/
def insertSorted (x : Int) : List Int → List Int
  | [] => [x]
  | y :: ys => if x < y then x :: y :: ys else if x = y then y :: ys else y :: insertSorted x ys

def sortedSet (l : List Int) : List Int := l.foldr insertSorted []

/-- The ports denoted by the parts of the port string, in written
order, before deduplication (`result` in the source right before the
final `sorted(set(result))`). -/
def rawPorts (ports_str : String) : Option (List Int) := do
  let parts := ((splitOnChar ',' ports_str.data).map pyStrip).filter (fun p => ¬ p.isEmpty)
  let lists ← parts.mapM portsOfPart
  some lists.flatten

/-- `cli.parse_ports(ports_str)`. -/
def parse_ports (ports_str : String) : Option (List Int) :=
  (rawPorts ports_str).map sortedSet

theorem mem_insertSorted (x a : Int) (l : List Int) :
    a ∈ insertSorted x l ↔ a = x ∨ a ∈ l := by
  induction l with
  | nil => simp [insertSorted]
  | cons y ys ih =>
    simp only [insertSorted]
    split
    · simp [List.mem_cons]
    · split
      · next hlt heq =>
        subst heq
        simp only [List.mem_cons]
        tauto
      · simp only [List.mem_cons, ih]
        tauto

theorem sorted_insertSorted (x : Int) (l : List Int)
    (h : l.Sorted (· < ·)) : (insertSorted x l).Sorted (· < ·) := by
  induction l with
  | nil => simp [insertSorted]
  | cons y ys ih =>
    simp only [insertSorted]
    rw [List.sorted_cons] at h
    split
    · next hlt =>
      rw [List.sorted_cons]
      refine ⟨?_, List.sorted_cons.mpr h⟩
      intro b hb
      rcases List.mem_cons.mp hb with hb | hb
      · exact hb ▸ hlt
      · exact hlt.trans (h.1 b hb)
    · split
      · exact List.sorted_cons.mpr h
      · next hlt hne =>
        rw [List.sorted_cons]
        refine ⟨?_, ih h.2⟩
        intro b hb
        rcases (mem_insertSorted x b ys).mp hb with hb | hb
        · subst hb
          omega
        · exact h.1 b hb

theorem sortedSet_sorted (l : List Int) : (sortedSet l).Sorted (· < ·) := by
  induction l with
  | nil => simp [sortedSet]
  | cons x xs ih => exact sorted_insertSorted x _ ih

theorem mem_sortedSet (a : Int) (l : List Int) : a ∈ sortedSet l ↔ a ∈ l := by
  induction l with
  | nil => simp [sortedSet]
  | cons x xs ih =>
    simp only [sortedSet, List.foldr_cons, List.mem_cons]
    rw [mem_insertSorted]
    simp only [sortedSet] at ih
    rw [ih]

theorem sortedSet_nodup (l : List Int) : (sortedSet l).Nodup :=
  (sortedSet_sorted l).nodup

/-! ## Data model (`config.py`, `models.py`)

`timeout` is a Python `float`; it is only ever handed to the I/O layer
(connect / read deadlines), never computed with, so the embedding
carries it as an abstract `Rat` threaded through to the environment. -/

structure ScannerConfig where
  timeout : Rat
  max_hosts : Int
  concurrency : Nat
  banner_max_bytes : Nat

/-- `datetime.datetime` value (UTC), as far as the scanner uses it. -/
structure DateTime where
  year : Nat
  month : Nat
  day : Nat
  hour : Nat
  minute : Nat
  second : Nat
  microsecond : Nat
  deriving DecidableEq, Repr

/-- `models.ScanResult`. -/
structure ScanResult where
  ip : String
  port : Int
  is_open : Bool
  service : Option String
  banner : Option String
  scanned_at : Option DateTime
  deriving DecidableEq, Repr

/-! ## Banner decoding (`banner_grabber.py` lines 34-41 / 71-78)

After a successful read both grab functions run
```
if not data: return None
try:    text = data.decode("utf-8", "ignore")
except UnicodeDecodeError: text = data.decode("latin-1", "ignore")
return text
```
CPython\'s `bytes.decode(enc, "ignore")` drops every byte of each
invalid sequence and never raises, so the `except` arm is unreachable.
`utf8DecodeIgnore` is that decoder: it emits each maximal valid UTF-8
sequence and skips one byte on failure (skipping invalid bytes one at a
time yields the same output as CPython\'s skip-the-maximal-subpart,
because the extra skipped bytes are continuation bytes, which can never
begin a sequence). -/

/-- UTF-8 continuation byte: `0x80..0xBF`. -/
def isContByte (b : Nat) : Bool := 128 ≤ b && b ≤ 191

/-- Admissible second byte of a three-byte sequence (excludes overlong
forms for `0xE0` and surrogates for `0xED`). -/
def isCont3 (b1 b2 : Nat) : Bool :=
  if b1 = 224 then 160 ≤ b2 && b2 ≤ 191
  else if b1 = 237 then 128 ≤ b2 && b2 ≤ 159
  else isContByte b2

/-- Admissible second byte of a four-byte sequence (excludes overlong
forms for `0xF0` and codepoints past `U+10FFFF` for `0xF4`). -/
def isCont4 (b1 b2 : Nat) : Bool :=
  if b1 = 240 then 144 ≤ b2 && b2 ≤ 191
  else if b1 = 244 then 128 ≤ b2 && b2 ≤ 143
  else isContByte b2

/-- `bytes.decode("utf-8", "ignore")`, fuelled for structural
recursion: every step consumes at least one byte, so `fuel = length` is
always enough and the fuel-exhausted arm is unreachable. -/
def utf8DecodeIgnoreAux : Nat → List Nat → List Char
  | 0, _ => []
  | _, [] => []
  | fuel + 1, b1 :: t1 =>
    if b1 < 128 then Char.ofNat b1 :: utf8DecodeIgnoreAux fuel t1
    else if 194 ≤ b1 ∧ b1 ≤ 223 then
      match t1 with
      | b2 :: t2 =>
        if isContByte b2 then
          Char.ofNat ((b1 - 192) * 64 + (b2 - 128)) :: utf8DecodeIgnoreAux fuel t2
        else utf8DecodeIgnoreAux fuel t1
      | [] => []
    else if 224 ≤ b1 ∧ b1 ≤ 239 then
      match t1 with
      | b2 :: b3 :: t3 =>
        if isCont3 b1 b2 && isContByte b3 then
          Char.ofNat ((b1 - 224) * 4096 + (b2 - 128) * 64 + (b3 - 128)) ::
            utf8DecodeIgnoreAux fuel t3
        else utf8DecodeIgnoreAux fuel t1
      | _ => utf8DecodeIgnoreAux fuel t1
    else if 240 ≤ b1 ∧ b1 ≤ 244 then
      match t1 with
      | b2 :: b3 :: b4 :: t4 =>
        if isCont4 b1 b2 && isContByte b3 && isContByte b4 then
          Char.ofNat ((b1 - 240) * 262144 + (b2 - 128) * 4096 + (b3 - 128) * 64 + (b4 - 128)) ::
            utf8DecodeIgnoreAux fuel t4
        else utf8DecodeIgnoreAux fuel t1
      | _ => utf8DecodeIgnoreAux fuel t1
    else utf8DecodeIgnoreAux fuel t1

def utf8DecodeIgnore (data : List Nat) : List Char :=
  utf8DecodeIgnoreAux data.length data

/-- Validity of a byte string as strict UTF-8 (the condition under which
`bytes.decode("utf-8")` with the default strict handler succeeds, i.e.
under which no `UnicodeDecodeError` would exist to trigger the
`latin-1` arm), fuelled like the decoder. -/
def utf8ValidAux : Nat → List Nat → Bool
  | 0, l => l.isEmpty
  | _, [] => true
  | fuel + 1, b1 :: t1 =>
    if b1 < 128 then utf8ValidAux fuel t1
    else if 194 ≤ b1 ∧ b1 ≤ 223 then
      match t1 with
      | b2 :: t2 => isContByte b2 && utf8ValidAux fuel t2
      | [] => false
    else if 224 ≤ b1 ∧ b1 ≤ 239 then
      match t1 with
      | b2 :: b3 :: t3 => isCont3 b1 b2 && isContByte b3 && utf8ValidAux fuel t3
      | _ => false
    else if 240 ≤ b1 ∧ b1 ≤ 244 then
      match t1 with
      | b2 :: b3 :: b4 :: t4 =>
        isCont4 b1 b2 && isContByte b3 && isContByte b4 && utf8ValidAux fuel t4
      | _ => false
    else false

def utf8Valid (data : List Nat) : Bool :=
  utf8ValidAux data.length data

/-- Strict `bytes.decode("utf-8")`: succeeds exactly on valid UTF-8, in
which case the ignore-mode decoder drops nothing and the two agree. -/
def utf8DecodeStrict (data : List Nat) : Option (List Char) :=
  if utf8Valid data then some (utf8DecodeIgnore data) else none

/-- `bytes.decode("latin-1", "ignore")`: one character per byte. -/
def latin1Decode (data : List Nat) : List Char :=
  data.map Char.ofNat

/-- The shared post-read logic of `grab_http_banner` (lines 34-41) and
`grab_raw_banner` (lines 71-78): empty read means no banner, otherwise
the bytes are decoded with `data.decode("utf-8", "ignore")` (the
`except UnicodeDecodeError` arm being unreachable). -/
def bannerOfRead (data : List Nat) : Option (List Char) :=
  if data.isEmpty then none else some (utf8DecodeIgnore data)

/-- Modelled from the spec: the decoding step as §4.3 words it — "bytes
are interpreted as UTF-8; on decode failure, fall back to a
single-byte-per-character decoding".  Compared against `bannerOfRead`,
which embeds what the source actually does. -/
def bannerOfRead_spec (data : List Nat) : Option (List Char) :=
  if data.isEmpty then none
  else match utf8DecodeStrict data with
    | some text => some text
    | none => some (latin1Decode data)

/-! ## The per-pair task (`scanner._scan_host_port`)

The outcomes of the three effectful calls (`check_port`,
`grab_http_banner`, `grab_raw_banner`) and of `datetime.utcnow()` are
supplied by a `NetEnv`; quantifying over the environment quantifies
over every behaviour of the network and clock.  The signatures mirror
the Python call sites: probe gets `(host, port, timeout)`, the banner
grabs get `(host, port, timeout, max_bytes)`. -/

structure NetEnv where
  probe : String → Int → Rat → Bool
  httpBanner : String → Int → Rat → Nat → Option String
  rawBanner : String → Int → Rat → Nat → Option String
  utcnow : String → Int → DateTime

/-- The port heuristic of `scanner.py` line 30: `port in (80, 8080, 8000, 443)`. -/
def isHttpPort (port : Int) : Bool :=
  port = 80 || port = 8080 || port = 8000 || port = 443

/-- `scanner._scan_host_port` after semaphore admission (lines 23-54):
probe, then — only when open — classify the service by the port
heuristic and sniff a banner with the matching policy. -/
def scan_host_port (env : NetEnv) (cfg : ScannerConfig) (host : String) (port : Int) :
    ScanResult :=
  let is_open := env.probe host port cfg.timeout
  let service : Option String :=
    if is_open then (if isHttpPort port then some "http" else some "unknown") else none
  let banner : Option String :=
    if is_open then
      (if isHttpPort port then env.httpBanner host port cfg.timeout cfg.banner_max_bytes
       else env.rawBanner host port cfg.timeout cfg.banner_max_bytes)
    else none
  { ip := host, port := port, is_open := is_open, service := service, banner := banner,
    scanned_at := some (env.utcnow host port) }

/-- Task creation order of `run_scan` lines 66-68: the host×port
Cartesian product, hosts outer, ports inner. -/
def scanPairs (hosts : List String) (ports : List Int) : List (String × Int) :=
  hosts.flatMap (fun h => ports.map (fun p => (h, p)))

/-- Result collection of `run_scan` lines 70-73: `asyncio.as_completed`
hands the finished tasks back in an arbitrary order; `order` is that
completion order, constrained (in the theorems) to be a permutation of
the created tasks. -/
def run_scan_results (env : NetEnv) (cfg : ScannerConfig)
    (order : List (String × Int)) : List ScanResult :=
  order.map (fun hp => scan_host_port env cfg hp.1 hp.2)

/-- `scanner.run_scan`: expand the CIDR (surfacing its error), fan out
one task per pair, collect in completion order. -/
def run_scan (env : NetEnv) (cfg : ScannerConfig) (cidr : String) (ports : List Int)
    (order : List (String × Int)) : Except InvalidRangeError (List ScanResult) :=
  (expand_cidr cidr (some cfg.max_hosts)).map (fun _hosts => run_scan_results env cfg order)

/-! ## Timestamps (`models.ScanResult.to_record`)

`datetime.isoformat()` with the default separator: zero-padded
`YYYY-MM-DDTHH:MM:SS`, with `.ffffff` appended only when the
microsecond field is non-zero. -/

def pad2 (n : Nat) : List Char :=
  if n < 10 then '0' :: natStr n else natStr n

def pad4 (n : Nat) : List Char :=
  if n < 10 then '0' :: '0' :: '0' :: natStr n
  else if n < 100 then '0' :: '0' :: natStr n
  else if n < 1000 then '0' :: natStr n
  else natStr n

def pad6 (n : Nat) : List Char :=
  if n < 10 then '0' :: '0' :: '0' :: '0' :: '0' :: natStr n
  else if n < 100 then '0' :: '0' :: '0' :: '0' :: natStr n
  else if n < 1000 then '0' :: '0' :: '0' :: natStr n
  else if n < 10000 then '0' :: '0' :: natStr n
  else if n < 100000 then '0' :: natStr n
  else natStr n

def isoformat (d : DateTime) : String :=
  String.mk (pad4 d.year ++ '-' :: pad2 d.month ++ '-' :: pad2 d.day ++
    'T' :: pad2 d.hour ++ ':' :: pad2 d.minute ++ ':' :: pad2 d.second ++
    (if d.microsecond = 0 then [] else '.' :: pad6 d.microsecond))

/-- The dictionary `ScanResult.to_record` returns (`asdict` plus the
timestamp fixup).  `utcnow` is the value `datetime.utcnow()` would
return at the moment of the call. -/
structure ScanRecord where
  ip : String
  port : Int
  is_open : Bool
  service : Option String
  banner : Option String
  scanned_at : String
  deriving DecidableEq, Repr

/-- `models.ScanResult.to_record` (lines 19-27): copy all fields; a
missing timestamp is replaced by `datetime.utcnow().isoformat()`, a
present one is serialised with `.isoformat()`. -/
def to_record (r : ScanResult) (utcnow : DateTime) : ScanRecord :=
  { ip := r.ip, port := r.port, is_open := r.is_open, service := r.service,
    banner := r.banner,
    scanned_at :=
      match r.scanned_at with
      | none => isoformat utcnow
      | some ts => isoformat ts }

/-! ## Result store (`storage.py`)

A row of the `scans` table.  `service`, `banner` and `scanned_at` carry
`Option` to represent SQL NULLability of the column (the schema marks
`scanned_at` NOT NULL; the invariant proofs show `save_results` indeed
never binds NULL there). -/

structure ScanRow where
  ip : String
  port : Int
  is_open : Int
  service : Option String
  banner : Option String
  scanned_at : Option String
  deriving DecidableEq, Repr

/-- The parameter tuple of the INSERT in `save_results` (lines 50-57). -/
def rowOf (utcnow : DateTime) (r : ScanResult) : ScanRow :=
  let record := to_record r utcnow
  { ip := record.ip, port := record.port,
    is_open := if record.is_open then 1 else 0,
    service := record.service, banner := record.banner,
    scanned_at := some record.scanned_at }

/-- An open sqlite connection with an explicit transaction:
`committed` is the durable table, `pending` the rows inserted inside
the open transaction. -/
structure Conn where
  committed : List ScanRow
  pending : List ScanRow

/-- `sqlite3.connect` on an existing database. -/
def connect (db : List ScanRow) : Conn := ⟨db, []⟩

/-- A successful `conn.execute("INSERT ...")` inside the transaction. -/
def execInsert (c : Conn) (row : ScanRow) : Conn := ⟨c.committed, c.pending ++ [row]⟩

/-- `conn.commit()`: the pending rows become durable together. -/
def commitConn (c : Conn) : Conn := ⟨c.committed ++ c.pending, []⟩

/-- `conn.close()` (the `finally:`): whatever is still pending in an
open transaction is rolled back; only the committed table survives. -/
def closeConn (c : Conn) : List ScanRow := c.committed

inductive StoreError
  | ioError
  deriving DecidableEq, Repr

/-- The insert loop of `save_results` (lines 43-58): each row is
inserted in order; `fail = true` on a row models that row\'s
`conn.execute` raising (I/O error, disk full, constraint...), which
aborts the loop before `conn.commit()` is reached. -/
def insertLoop (c : Conn) : List (ScanRow × Bool) → Except Conn Conn
  | [] => .ok c
  | (row, fail) :: rest =>
    if fail then .error c else insertLoop (execInsert c row) rest

/-- `storage.save_results(path, results)` over a database currently
holding `db`: BEGIN, insert every `r.to_record()` (each `to_record`
call reading the clock, `nows i`, and each insert subject to failure,
`fails i`), COMMIT on success; `finally: conn.close()` on every path.
Returns the persisted table and the error surfaced to the caller, if
any. -/
def save_results (db : List ScanRow) (results : List ScanResult)
    (nows : Nat → DateTime) (fails : Nat → Bool) :
    List ScanRow × Option StoreError :=
  let rows := (List.range results.length).zip results |>.map
    (fun q => (rowOf (nows q.1) q.2, fails q.1))
  match insertLoop (connect db) rows with
  | .ok c => (closeConn (commitConn c), none)
  | .error c => (closeConn c, some .ioError)

/-! ## The admission gate (`asyncio.Semaphore`, `scanner.py` lines 22, 63)

`run_scan` creates one task per pair and a semaphore sized
`cfg.concurrency`; each task\'s whole body runs under `async with sem`
(acquire before the probe, release on every exit).  The scheduler is
modelled as a small-step transition system over the phases of the
tasks: a `pending` task may turn `active` only by consuming a
semaphore permit, an `active` task turning `done` returns its permit.
Every interleaving the event loop can produce is a path of this
system. -/

inductive TaskPhase
  | pending
  | active
  | done
  deriving DecidableEq, Repr

structure SchedState where
  tasks : List TaskPhase
  avail : Nat

/-- The start of `run_scan`: `n` freshly created tasks, a semaphore
with `c` permits. -/
def initSched (n c : Nat) : SchedState :=
  ⟨List.replicate n .pending, c⟩

/-- One scheduler step: semaphore admission (`async with sem` entry,
possible only while a permit is available) or task completion
(releasing the permit, unconditionally, success or failure). -/
inductive SchedStep : SchedState → SchedState → Prop
  | acquire (tasks : List TaskPhase) (avail : Nat) (i : Nat)
      (hi : tasks[i]? = some .pending) (ha : 0 < avail) :
      SchedStep ⟨tasks, avail⟩ ⟨tasks.set i .active, avail - 1⟩
  | release (tasks : List TaskPhase) (avail : Nat) (i : Nat)
      (hi : tasks[i]? = some .active) :
      SchedStep ⟨tasks, avail⟩ ⟨tasks.set i .done, avail + 1⟩

/-- All states one scan invocation can reach, over every interleaving. -/
def SchedReach (s t : SchedState) : Prop :=
  Relation.ReflTransGen SchedStep s t

/-- The number of simultaneously active probe-or-sniff tasks: past
semaphore admission and not yet finished. -/
def activeCount (s : SchedState) : Nat :=
  s.tasks.count .active

/-! ## Theorems -/

/-! ### The admission-gate invariant (spec §3, §5, §8 — claim about
`concurrency`) -/

/-- The key bookkeeping identity: permits still available plus tasks
currently holding one always equals the semaphore\'s initial size. -/
def schedInv (c : Nat) (s : SchedState) : Prop :=
  activeCount s + s.avail = c

theorem count_set_phase (y z : TaskPhase) :
    ∀ (l : List TaskPhase) (i : Nat) (x : TaskPhase), l[i]? = some x →
      (l.set i y).count z + (if x = z then 1 else 0) =
        l.count z + (if y = z then 1 else 0) := by
  intro l
  induction l with
  | nil => intro i x h; simp at h
  | cons a as ih =>
    intro i x h
    cases i with
    | zero =>
      simp only [List.getElem?_cons_zero, Option.some.injEq] at h
      subst h
      simp only [List.set_cons_zero, List.count_cons, beq_iff_eq]
      by_cases hx : a = z <;> by_cases hy : y = z <;> simp [hx, hy]
    | succ j =>
      simp only [List.getElem?_cons_succ] at h
      have := ih j x h
      simp only [List.set_cons_succ, List.count_cons, beq_iff_eq]
      by_cases ha' : a = z <;> simp [ha'] <;> omega

theorem schedInv_init (n c : Nat) : schedInv c (initSched n c) := by
  simp [schedInv, activeCount, initSched, List.count_replicate]

theorem schedInv_step {c : Nat} {s t : SchedState} (hst : SchedStep s t)
    (h : schedInv c s) : schedInv c t := by
  cases hst with
  | acquire tasks avail i hi ha =>
    have hc := count_set_phase .active .active tasks i .pending hi
    simp only [schedInv, activeCount] at h ⊢
    simp at hc
    omega
  | release tasks avail i hi =>
    have hc := count_set_phase .done .active tasks i .active hi
    simp only [schedInv, activeCount] at h ⊢
    simp at hc
    omega

/-- C2: during one `run_scan` invocation the number of simultaneously
active probe-or-sniff tasks — past semaphore admission, not yet
finished — never exceeds `config.concurrency`, in every state every
interleaving of the scheduler can reach. -/
theorem concurrency_bound (cfg : ScannerConfig) (n : Nat) (s : SchedState)
    (h : SchedReach (initSched n cfg.concurrency) s) :
    activeCount s ≤ cfg.concurrency := by
  have hinv : schedInv cfg.concurrency s := by
    induction h with
    | refl => exact schedInv_init n cfg.concurrency
    | tail hab hbc ih => exact schedInv_step hbc ih
  simp only [schedInv] at hinv
  omega

theorem concurrency_bound_witness :
    activeCount ⟨[TaskPhase.active, TaskPhase.pending], 0⟩ ≤ 1 :=
  concurrency_bound ⟨2, 256, 1, 2048⟩ 2 _
    (Relation.ReflTransGen.single (SchedStep.acquire _ _ 0 rfl (by decide)))

/-! ### Closed results carry no banner and no service (spec §3, §8) -/

/-- C3: a `ScanResult` the per-pair task produces with
`is_open = false` has `banner = None` and `service = None`; both fields
are only ever populated on the open branch. -/
theorem closed_result_no_banner_service (env : NetEnv) (cfg : ScannerConfig)
    (host : String) (port : Int)
    (h : (scan_host_port env cfg host port).is_open = false) :
    (scan_host_port env cfg host port).banner = none ∧
    (scan_host_port env cfg host port).service = none := by
  cases hp : env.probe host port cfg.timeout with
  | false => simp [scan_host_port, hp]
  | true => simp [scan_host_port, hp] at h

theorem closed_result_no_banner_service_witness :
    (scan_host_port
      ⟨fun _ _ _ => false, fun _ _ _ _ => some "x", fun _ _ _ _ => some "y",
        fun _ _ => ⟨2025, 1, 1, 0, 0, 0, 0⟩⟩
      ⟨2, 256, 200, 2048⟩ "127.0.0.1" 22).banner = none :=
  (closed_result_no_banner_service
    ⟨fun _ _ _ => false, fun _ _ _ _ => some "x", fun _ _ _ _ => some "y",
      fun _ _ => ⟨2025, 1, 1, 0, 0, 0, 0⟩⟩
    ⟨2, 256, 200, 2048⟩ "127.0.0.1" 22 rfl).1

/-! ### Atomicity of `save_results` (spec §4.5, §7) -/

theorem insertLoop_ok_eq : ∀ (rows : List (ScanRow × Bool)) (c c' : Conn),
    insertLoop c rows = .ok c' → c' = ⟨c.committed, c.pending ++ rows.map Prod.fst⟩ := by
  intro rows
  induction rows with
  | nil =>
    intro c c' h
    simp only [insertLoop, Except.ok.injEq] at h
    simp [← h]
  | cons rb rest ih =>
    obtain ⟨row, fail⟩ := rb
    intro c c' h
    simp only [insertLoop] at h
    split at h
    · exact absurd h (by simp)
    · have := ih (execInsert c row) c' h
      simp only [execInsert] at this
      simp [this, List.append_assoc]

theorem insertLoop_error_committed : ∀ (rows : List (ScanRow × Bool)) (c c' : Conn),
    insertLoop c rows = .error c' → c'.committed = c.committed := by
  intro rows
  induction rows with
  | nil => intro c c' h; simp [insertLoop] at h
  | cons rb rest ih =>
    obtain ⟨row, fail⟩ := rb
    intro c c' h
    simp only [insertLoop] at h
    split at h
    · simp only [Except.error.injEq] at h
      rw [← h]
    · exact ih (execInsert c row) c' h

/-- Either every row of the batch commits together, or nothing of the
batch reaches the table. -/
theorem save_results_cases (db : List ScanRow) (results : List ScanResult)
    (nows : Nat → DateTime) (fails : Nat → Bool) :
    save_results db results nows fails =
      (db ++ ((List.range results.length).zip results).map (fun q => rowOf (nows q.1) q.2),
        none) ∨
    save_results db results nows fails = (db, some .ioError) := by
  unfold save_results
  dsimp only
  cases h : insertLoop (connect db)
      (((List.range results.length).zip results).map
        (fun q => (rowOf (nows q.1) q.2, fails q.1))) with
  | ok c =>
    left
    have hc := insertLoop_ok_eq _ _ _ h
    simp only [connect] at hc
    subst hc
    simp only [closeConn, commitConn, List.map_map]
    rfl
  | error c =>
    right
    have hc := insertLoop_error_committed _ _ _ h
    simp only [connect] at hc
    simp [closeConn, hc]

/-- C5: `save_results` is atomic — when no write fails the whole batch
is appended in one commit, and when anything fails no row from the
invocation is persisted: the stored table is exactly as before. -/
theorem save_results_atomic (db : List ScanRow) (results : List ScanResult)
    (nows : Nat → DateTime) (fails : Nat → Bool) :
    ((save_results db results nows fails).2 = none →
      (save_results db results nows fails).1 =
        db ++ ((List.range results.length).zip results).map (fun q => rowOf (nows q.1) q.2)) ∧
    ((save_results db results nows fails).2 ≠ none →
      (save_results db results nows fails).1 = db) := by
  rcases save_results_cases db results nows fails with h | h <;> rw [h] <;> simp

theorem save_results_atomic_witness :
    (save_results [] [⟨"10.0.0.1", 22, false, none, none, none⟩]
      (fun _ => ⟨2025, 1, 1, 0, 0, 0, 0⟩) (fun _ => false)).1 =
      [rowOf ⟨2025, 1, 1, 0, 0, 0, 0⟩ ⟨"10.0.0.1", 22, false, none, none, none⟩] :=
  (save_results_atomic [] [⟨"10.0.0.1", 22, false, none, none, none⟩]
    (fun _ => ⟨2025, 1, 1, 0, 0, 0, 0⟩) (fun _ => false)).1 rfl

/-! ### Persisted timestamps are never NULL (`to_record`, spec §6) -/

/-- C10: the `scanned_at` column is never NULL — `to_record`
substitutes `datetime.utcnow().isoformat()` for a missing timestamp and
serialises a present one with `.isoformat()`; consequently every row
`save_results` appends carries a timestamp string. -/
theorem to_record_scanned_at (r : ScanResult) (utcnow : DateTime) :
    (rowOf utcnow r).scanned_at ≠ none ∧
    (r.scanned_at = none → (rowOf utcnow r).scanned_at = some (isoformat utcnow)) ∧
    (∀ ts, r.scanned_at = some ts → (rowOf utcnow r).scanned_at = some (isoformat ts)) ∧
    (∀ (db : List ScanRow) (results : List ScanResult) (nows : Nat → DateTime)
        (fails : Nat → Bool) (row : ScanRow),
        row ∈ (save_results db results nows fails).1 → row ∈ db ∨ row.scanned_at ≠ none) := by
  refine ⟨?_, ?_, ?_, ?_⟩
  · cases hts : r.scanned_at <;> simp [rowOf, to_record, hts]
  · intro h; simp [rowOf, to_record, h]
  · intro ts h; simp [rowOf, to_record, h]
  · intro db results nows fails row hrow
    rcases save_results_cases db results nows fails with h | h
    · rw [h] at hrow
      rcases List.mem_append.mp hrow with h1 | h1
      · exact Or.inl h1
      · right
        obtain ⟨q, _, hq⟩ := List.mem_map.mp h1
        rw [← hq]
        cases hts : q.2.scanned_at <;> simp [rowOf, to_record]
    · rw [h] at hrow
      exact Or.inl hrow

theorem to_record_scanned_at_witness :
    (rowOf ⟨2025, 1, 2, 3, 4, 5, 6⟩
      ⟨"h", 1, true, none, none, some ⟨2024, 5, 6, 7, 8, 9, 0⟩⟩).scanned_at =
      some (isoformat ⟨2024, 5, 6, 7, 8, 9, 0⟩) :=
  (to_record_scanned_at ⟨"h", 1, true, none, none, some ⟨2024, 5, 6, 7, 8, 9, 0⟩⟩
    ⟨2025, 1, 2, 3, 4, 5, 6⟩).2.2.1 _ rfl

/-! ### Banner decoding (spec §4.3) -/

/-- C6 counterexample: for the non-empty read `b"\xff"` the spec\'s
stated decoding (UTF-8, falling back to a single-byte-per-character
decoding on failure) yields `"ÿ"`, but the source\'s
`decode("utf-8", "ignore")` never raises and silently drops the
undecodable byte, returning the empty string — the `latin-1` arm is
unreachable. -/
theorem banner_decode_divergence :
    bannerOfRead [255] = some [] ∧
    bannerOfRead_spec [255] = some ['ÿ'] ∧
    bannerOfRead [255] ≠ bannerOfRead_spec [255] := by decide

/-- C6 (amended): every non-empty read yields a banner string — the
bytes decoded as UTF-8 with every invalid sequence silently dropped
(`errors="ignore"`); in particular on strictly-valid UTF-8 input the
result is exactly the UTF-8 interpretation.  No read is ever turned
into `None` by encoding, but undecodable bytes are dropped rather than
re-decoded as latin-1. -/
theorem banner_decode_utf8_ignore (data : List Nat) (hne : data ≠ []) :
    bannerOfRead data = some (utf8DecodeIgnore data) ∧
    (∀ text, utf8DecodeStrict data = some text → bannerOfRead data = some text) := by
  have hne' : data.isEmpty = false := by
    cases data with
    | nil => exact absurd rfl hne
    | cons a as => rfl
  constructor
  · simp [bannerOfRead, hne']
  · intro text ht
    unfold utf8DecodeStrict at ht
    split at ht
    · have := Option.some.inj ht
      simp [bannerOfRead, hne', this]
    · exact absurd ht (by simp)

theorem banner_decode_utf8_ignore_witness :
    bannerOfRead [83, 83, 72] = some (utf8DecodeIgnore [83, 83, 72]) :=
  (banner_decode_utf8_ignore [83, 83, 72] (by decide)).1

/-! ### `parse_ports` (spec §6, §8) -/

/-- C8: `parse_ports` returns the denoted ports deduplicated and
sorted strictly ascending (`sorted(set(result))`), and on the two
spec examples returns `[20, 21, 22, 80]` and `[22, 80]`. -/
theorem parse_ports_sorted_dedup :
    (∀ (s : String) (raw : List Int), rawPorts s = some raw →
      parse_ports s = some (sortedSet raw) ∧
      (sortedSet raw).Sorted (· < ·) ∧ (sortedSet raw).Nodup ∧
      (∀ x : Int, x ∈ sortedSet raw ↔ x ∈ raw)) ∧
    parse_ports "20-22,80" = some [20, 21, 22, 80] ∧
    parse_ports "80,80,22" = some [22, 80] := by
  refine ⟨?_, by decide, by decide⟩
  intro s raw h
  exact ⟨by simp [parse_ports, h], sortedSet_sorted raw, sortedSet_nodup raw,
    fun x => mem_sortedSet x raw⟩

theorem parse_ports_sorted_dedup_witness :
    parse_ports "20-22,80" = some (sortedSet [20, 21, 22, 80]) :=
  (parse_ports_sorted_dedup.1 "20-22,80" [20, 21, 22, 80] (by decide)).1

/-! ### `expand_cidr` error behaviour (spec §4.1, §7) -/

/-- C4: `expand_cidr` surfaces the range error exactly when the
specification cannot be parsed as a valid network, and returns
normally on every parsable one. -/
theorem expand_cidr_error_iff (cidr : String) (mh : Option Int) :
    (expand_cidr cidr mh = .error .invalid ↔ ipNetworkParse cidr = none) ∧
    (ipNetworkParse cidr ≠ none → ∃ hosts, expand_cidr cidr mh = .ok hosts) := by
  cases h : ipNetworkParse cidr with
  | none =>
    refine ⟨?_, fun hne => absurd rfl hne⟩
    simp [expand_cidr, h]
  | some np =>
    obtain ⟨net, p⟩ := np
    refine ⟨by simp [expand_cidr, h], fun _ => ?_⟩
    refine ⟨((match mh with
      | none => hostsList net p
      | some m => (hostsList net p).take m.toNat).map ipToString), ?_⟩
    simp [expand_cidr, h]

theorem expand_cidr_error_iff_witness :
    expand_cidr "300.0.0.1/8" none = .error .invalid ∧
    ∃ hosts, expand_cidr "10.0.0.0/30" none = .ok hosts :=
  ⟨(expand_cidr_error_iff "300.0.0.1/8" none).1.mpr (by decide),
   (expand_cidr_error_iff "10.0.0.0/30" none).2 (by decide)⟩

/-! ### Distinctness and range of expanded hosts (spec §4.1, §8) -/

set_option maxRecDepth 10000 in
/-- Formatting then re-parsing an octet is the identity (checked over
all 256 octet values). -/
theorem parseOctet_natStr : ∀ n : Fin 256, parseOctet (natStr n.val) = some n.val := by
  decide

set_option maxRecDepth 10000 in
theorem natStr_no_dot : ∀ n : Fin 256, '.' ∉ natStr n.val := by
  decide

theorem natStr_no_dot' (x : Nat) (h : x < 256) : '.' ∉ natStr x :=
  natStr_no_dot ⟨x, h⟩

theorem splitOnChar_quad (a b c d : Nat) (ha : a < 256) (hb : b < 256)
    (hc : c < 256) (hd : d < 256) :
    splitOnChar '.' (natStr a ++ '.' :: (natStr b ++ '.' :: (natStr c ++ '.' :: natStr d))) =
      [natStr a, natStr b, natStr c, natStr d] := by
  rw [splitOnChar_append _ (natStr_no_dot' a ha), splitOnChar_append _ (natStr_no_dot' b hb),
    splitOnChar_append _ (natStr_no_dot' c hc), splitOnChar_of_not_mem (natStr_no_dot' d hd)]

theorem natStr_inj_octet {a b : Nat} (ha : a < 256) (hb : b < 256)
    (h : natStr a = natStr b) : a = b := by
  have r1 := parseOctet_natStr ⟨a, ha⟩
  have r2 := parseOctet_natStr ⟨b, hb⟩
  simp only at r1 r2
  rw [h, r2] at r1
  exact (Option.some.inj r1).symm

theorem ipToString_inj {m n : Nat} (hm : m < 4294967296) (hn : n < 4294967296)
    (h : ipToString m = ipToString n) : m = n := by
  have hm1 : m / 16777216 % 256 < 256 := Nat.mod_lt _ (by norm_num)
  have hm2 : m / 65536 % 256 < 256 := Nat.mod_lt _ (by norm_num)
  have hm3 : m / 256 % 256 < 256 := Nat.mod_lt _ (by norm_num)
  have hm4 : m % 256 < 256 := Nat.mod_lt _ (by norm_num)
  have hn1 : n / 16777216 % 256 < 256 := Nat.mod_lt _ (by norm_num)
  have hn2 : n / 65536 % 256 < 256 := Nat.mod_lt _ (by norm_num)
  have hn3 : n / 256 % 256 < 256 := Nat.mod_lt _ (by norm_num)
  have hn4 : n % 256 < 256 := Nat.mod_lt _ (by norm_num)
  have hd : (ipToString m).data = (ipToString n).data := by rw [h]
  have hsplit := congrArg (splitOnChar '.') hd
  rw [show (ipToString m).data = natStr (m / 16777216 % 256) ++ '.' ::
        (natStr (m / 65536 % 256) ++ '.' :: (natStr (m / 256 % 256) ++ '.' :: natStr (m % 256)))
      from rfl,
    show (ipToString n).data = natStr (n / 16777216 % 256) ++ '.' ::
        (natStr (n / 65536 % 256) ++ '.' :: (natStr (n / 256 % 256) ++ '.' :: natStr (n % 256)))
      from rfl,
    splitOnChar_quad _ _ _ _ hm1 hm2 hm3 hm4,
    splitOnChar_quad _ _ _ _ hn1 hn2 hn3 hn4] at hsplit
  simp only [List.cons.injEq, and_true] at hsplit
  obtain ⟨e1, e2, e3, e4⟩ := hsplit
  have o1 := natStr_inj_octet hm1 hn1 e1
  have o2 := natStr_inj_octet hm2 hn2 e2
  have o3 := natStr_inj_octet hm3 hn3 e3
  have o4 := natStr_inj_octet hm4 hn4 e4
  omega

theorem hostsList_nodup (net p : Nat) : (hostsList net p).Nodup := by
  unfold hostsList
  split
  · exact List.nodup_range' _ _
  · split
    · refine List.nodup_cons.mpr ⟨?_, List.nodup_cons.mpr ⟨by simp, List.nodup_nil⟩⟩
      simp
    · simp

theorem hostsList_mem {net p x : Nat} (hp : p ≤ 32) (hx : x ∈ hostsList net p) :
    net ≤ x ∧ x < net + 2 ^ (32 - p) := by
  unfold hostsList at hx
  split at hx
  · next h30 =>
    rw [List.mem_range'_1] at hx
    have h4 : 4 ≤ 2 ^ (32 - p) := by
      calc (4 : Nat) = 2 ^ 2 := by norm_num
      _ ≤ 2 ^ (32 - p) := Nat.pow_le_pow_right (by norm_num) (by omega)
    omega
  · split at hx
    · next h30 h31 =>
      subst h31
      simp only [List.mem_cons, List.not_mem_nil, or_false] at hx
      norm_num
      omega
    · next h30 h31 =>
      have hp32 : p = 32 := by omega
      subst hp32
      simp only [List.mem_cons, List.not_mem_nil, or_false] at hx
      norm_num
      omega

theorem hostsList_mem_usable {net p x : Nat} (h30 : p ≤ 30) (hx : x ∈ hostsList net p) :
    net + 1 ≤ x ∧ x + 1 < net + 2 ^ (32 - p) := by
  unfold hostsList at hx
  rw [if_pos h30, List.mem_range'_1] at hx
  have h4 : 4 ≤ 2 ^ (32 - p) := by
    calc (4 : Nat) = 2 ^ 2 := by norm_num
    _ ≤ 2 ^ (32 - p) := Nat.pow_le_pow_right (by norm_num) (by omega)
  omega

theorem parseOctet_le {l : List Char} {v : Nat} (h : parseOctet l = some v) : v ≤ 255 := by
  unfold parseOctet at h
  split at h
  · exact absurd h (by simp)
  · split at h
    · exact absurd h (by simp)
    · split at h
      · exact absurd h (by simp)
      · split at h
        · exact absurd h (by simp)
        · split at h
          · exact absurd h (by simp)
          · next hgt =>
            rw [← Option.some.inj h]
            omega

theorem parseIPv4_lt {l : List Char} {n : Nat} (h : parseIPv4 l = some n) :
    n < 4294967296 := by
  unfold parseIPv4 at h
  split at h
  · simp only [Option.bind_eq_bind, Option.bind_eq_some, Option.some.injEq] at h
    obtain ⟨va, ha, vb, hb, vc, hc, vd, hd, hn⟩ := h
    have := parseOctet_le ha
    have := parseOctet_le hb
    have := parseOctet_le hc
    have := parseOctet_le hd
    omega
  · exact absurd h (by simp)

theorem parsePrefixLen_le {l : List Char} {v : Nat} (h : parsePrefixLen l = some v) : v ≤ 32 := by
  unfold parsePrefixLen at h
  split at h
  · exact absurd h (by simp)
  · split at h
    · exact absurd h (by simp)
    · split at h
      · next hle => rw [← Option.some.inj h]; omega
      · exact absurd h (by simp)

theorem masked_bound {ip u : Nat} (hdvd : u ∣ 4294967296)
    (hip : ip < 4294967296) : ip / u * u + u ≤ 4294967296 := by
  have h1 : ip / u < 4294967296 / u := Nat.div_lt_div_of_lt_of_dvd hdvd hip
  calc ip / u * u + u = (ip / u + 1) * u := by ring
  _ ≤ 4294967296 / u * u := Nat.mul_le_mul_right u h1
  _ = 4294967296 := Nat.div_mul_cancel hdvd

theorem ipNetworkParse_spec {s : String} {net p : Nat}
    (h : ipNetworkParse s = some (net, p)) :
    p ≤ 32 ∧ net + 2 ^ (32 - p) ≤ 4294967296 := by
  unfold ipNetworkParse at h
  split at h
  · next a heq =>
    cases hip : parseIPv4 a with
    | none => rw [hip] at h; exact absurd h (by simp)
    | some ip =>
      rw [hip] at h
      simp only [Option.map_some', Option.some.injEq, Prod.mk.injEq] at h
      obtain ⟨hnet, hp⟩ := h
      have hlt := parseIPv4_lt hip
      subst hp
      refine ⟨by omega, ?_⟩
      have h20 : (2 : Nat) ^ (32 - 32) = 1 := by norm_num
      rw [h20] at hnet
      rw [h20]
      omega
  · next a q heq =>
    simp only [Option.bind_eq_bind, Option.bind_eq_some, Option.some.injEq,
      Prod.mk.injEq] at h
    obtain ⟨ip, hip, pl, hpl, hnet, hp⟩ := h
    have hlt := parseIPv4_lt hip
    have hple := parsePrefixLen_le hpl
    subst hp
    subst hnet
    refine ⟨hple, ?_⟩
    exact masked_bound
      (by
        have : (2 : Nat) ^ (32 - pl) ∣ 2 ^ 32 := pow_dvd_pow 2 (by omega)
        norm_num at this
        exact this)
      hlt
  · exact absurd h (by simp)

theorem expand_cidr_ok_elim {cidr : String} {mh : Option Int} {hosts : List String}
    (h : expand_cidr cidr mh = .ok hosts) :
    ∃ net p, ipNetworkParse cidr = some (net, p) ∧
      hosts = (match mh with
        | none => hostsList net p
        | some m => (hostsList net p).take m.toNat).map ipToString := by
  unfold expand_cidr at h
  split at h
  · exact absurd h (by simp)
  · next net p heq =>
    refine ⟨net, p, heq, ?_⟩
    simp only [Except.ok.injEq] at h
    exact h.symm

theorem expand_cidr_hosts_sub {cidr : String} {mh : Option Int} {hosts : List String}
    {net p : Nat} (hparse : ipNetworkParse cidr = some (net, p))
    (h : expand_cidr cidr mh = .ok hosts) :
    ∀ x ∈ hosts, ∃ y ∈ hostsList net p, x = ipToString y := by
  obtain ⟨net', p', hparse', hh⟩ := expand_cidr_ok_elim h
  rw [hparse] at hparse'
  obtain ⟨rfl, rfl⟩ : net' = net ∧ p' = p := by
    have := Option.some.inj hparse'
    exact ⟨congrArg Prod.fst this.symm, congrArg Prod.snd this.symm⟩
  subst hh
  intro x hx
  obtain ⟨y, hy, rfl⟩ := List.mem_map.mp hx
  refine ⟨y, ?_, rfl⟩
  cases mh with
  | none => exact hy
  | some m => exact (List.take_sublist _ _).subset hy

theorem expand_cidr_hosts_nodup {cidr : String} {mh : Option Int} {hosts : List String}
    (h : expand_cidr cidr mh = .ok hosts) : hosts.Nodup := by
  obtain ⟨net, p, hparse, hh⟩ := expand_cidr_ok_elim h
  obtain ⟨hp32, hbound⟩ := ipNetworkParse_spec hparse
  subst hh
  have hsub : ∀ x ∈ (match mh with
      | none => hostsList net p
      | some m => (hostsList net p).take m.toNat), x ∈ hostsList net p := by
    intro x hx
    cases mh with
    | none => exact hx
    | some m => exact (List.take_sublist _ _).subset hx
  have hbase : (match mh with
      | none => hostsList net p
      | some m => (hostsList net p).take m.toNat).Nodup := by
    cases mh with
    | none => exact hostsList_nodup net p
    | some m => exact (List.take_sublist _ _).nodup (hostsList_nodup net p)
  refine hbase.map_on ?_
  intro x hx y hy hxy
  have bx := hostsList_mem hp32 (hsub x hx)
  have by' := hostsList_mem hp32 (hsub y hy)
  exact ipToString_inj (by omega) (by omega) hxy

/-- C7 counterexample: for the valid range `192.168.0.0/31` the
expansion contains `192.168.0.0` — the network address itself (and
`192.168.0.1`, the broadcast address): Python\'s `hosts()` returns both
endpoint addresses of a `/31`, so not every returned address lies in
the claim\'s "usable host range (network and broadcast excluded)". -/
theorem expand_cidr_slash31_includes_network :
    ipNetworkParse "192.168.0.0/31" = some (3232235520, 31) ∧
    expand_cidr "192.168.0.0/31" (some 5) = .ok ["192.168.0.0", "192.168.0.1"] ∧
    ipToString 3232235520 = "192.168.0.0" := by
  decide

/-- C7 (amended): for every valid CIDR range and cap `k`, `expand_cidr`
returns at most `k` addresses, all pairwise distinct, and every address
lies inside the parsed network; for prefixes up to `/30` every address
lies strictly between the network and broadcast addresses (for `/31`
and `/32`, CPython\'s special cases, the endpoint addresses themselves
are returned). -/
theorem expand_cidr_cap_distinct (cidr : String) (k : Int) (net p : Nat)
    (hosts : List String)
    (hparse : ipNetworkParse cidr = some (net, p))
    (hok : expand_cidr cidr (some k) = .ok hosts) :
    hosts.length ≤ k.toNat ∧ hosts.Nodup ∧
    (∀ h ∈ hosts, ∃ x, h = ipToString x ∧ net ≤ x ∧ x < net + 2 ^ (32 - p)) ∧
    (p ≤ 30 → ∀ h ∈ hosts, ∃ x, h = ipToString x ∧ net + 1 ≤ x ∧
      x + 1 < net + 2 ^ (32 - p)) := by
  obtain ⟨hp32, _⟩ := ipNetworkParse_spec hparse
  refine ⟨?_, expand_cidr_hosts_nodup hok, ?_, ?_⟩
  · obtain ⟨net', p', hparse', hh⟩ := expand_cidr_ok_elim hok
    subst hh
    simp only [List.length_map, List.length_take]
    omega
  · intro h hmem
    obtain ⟨y, hy, rfl⟩ := expand_cidr_hosts_sub hparse hok h hmem
    exact ⟨y, rfl, hostsList_mem hp32 hy⟩
  · intro h30 h hmem
    obtain ⟨y, hy, rfl⟩ := expand_cidr_hosts_sub hparse hok h hmem
    exact ⟨y, rfl, hostsList_mem_usable h30 hy⟩

theorem expand_cidr_cap_distinct_witness :
    (["10.0.0.1", "10.0.0.2"] : List String).Nodup :=
  (expand_cidr_cap_distinct "10.0.0.0/30" 10 167772160 30 ["10.0.0.1", "10.0.0.2"]
    (by decide) (by decide)).2.1

/-! ### Host bits below the prefix are masked, not rejected (spec §4.1) -/

/-- C9: a range specification with host bits set below the prefix
(`"192.168.0.5/24"`) is accepted — `strict=False` — and expands to the
usable hosts of the containing network `192.168.0.0/24`. -/
theorem expand_cidr_masks_host_bits :
    ipNetworkParse "192.168.0.5/24" = some (3232235520, 24) ∧
    ipNetworkParse "192.168.0.5/24" = ipNetworkParse "192.168.0.0/24" ∧
    expand_cidr "192.168.0.5/24" none = expand_cidr "192.168.0.0/24" none ∧
    expand_cidr "192.168.0.5/24" (some 3) =
      .ok ["192.168.0.1", "192.168.0.2", "192.168.0.3"] := by
  refine ⟨by decide, by decide, ?_, by decide⟩
  have h1 : ipNetworkParse "192.168.0.5/24" = some (3232235520, 24) := by decide
  have h2 : ipNetworkParse "192.168.0.0/24" = some (3232235520, 24) := by decide
  unfold expand_cidr
  rw [h1, h2]

/-! ### One result per (host, port) pair (spec §3, §4.4, §7, §8) -/

theorem countP_eq_one_of_nodup_mem {α : Type} [DecidableEq α] :
    ∀ {l : List α} {a : α}, l.Nodup → a ∈ l →
      l.countP (fun x => decide (x = a)) = 1 := by
  intro l
  induction l with
  | nil => intro a _ ha; simp at ha
  | cons b t ih =>
    intro a hnd ha
    rw [List.nodup_cons] at hnd
    rw [List.countP_cons]
    rcases List.mem_cons.mp ha with hb | ht
    · subst hb
      have h0 : t.countP (fun x => decide (x = a)) = 0 :=
        List.countP_eq_zero.mpr (fun x hx => by
          simp only [decide_eq_true_eq]
          rintro rfl
          exact hnd.1 hx)
      simp [h0]
    · have h1 := ih hnd.2 ht
      have hba : ¬ b = a := fun hba => hnd.1 (hba ▸ ht)
      simp [h1, hba]

theorem scanPairs_length (hosts : List String) (ports : List Int) :
    (scanPairs hosts ports).length = hosts.length * ports.length := by
  induction hosts with
  | nil => simp [scanPairs]
  | cons h t ih =>
    simp only [scanPairs, List.flatMap_cons, List.length_append, List.length_map,
      List.length_cons] at ih ⊢
    rw [ih, Nat.succ_mul]
    omega

theorem mem_scanPairs {hosts : List String} {ports : List Int} {h : String} {p : Int} :
    (h, p) ∈ scanPairs hosts ports ↔ h ∈ hosts ∧ p ∈ ports := by
  simp only [scanPairs, List.mem_flatMap, List.mem_map, Prod.mk.injEq]
  constructor
  · rintro ⟨a, ha, b, hb, rfl, rfl⟩
    exact ⟨ha, hb⟩
  · rintro ⟨ha, hb⟩
    exact ⟨h, ha, p, hb, rfl, rfl⟩

theorem scanPairs_nodup {hosts : List String} {ports : List Int}
    (hh : hosts.Nodup) (hp : ports.Nodup) : (scanPairs hosts ports).Nodup := by
  rw [scanPairs, List.nodup_flatMap]
  refine ⟨fun x _ => hp.map (Prod.mk.inj_left x), ?_⟩
  refine List.Pairwise.imp ?_ hh
  intro a b hab x hxa hxb
  simp only [List.mem_map] at hxa hxb
  obtain ⟨pa, _, rfl⟩ := hxa
  obtain ⟨pb, _, hx⟩ := hxb
  exact hab (congrArg Prod.fst hx).symm

/-- C1: one `run_scan` invocation produces exactly
`len(hosts) × len(ports)` results — exactly one per (host, port) pair,
no duplicates, no dropped pairs — for every network behaviour (probes
may fail or time out arbitrarily: `env` is universally quantified) and
every completion order `as_completed` may deliver.  The port list is
assumed duplicate-free, as `parse_ports` guarantees for every list the
program builds (`sorted(set(...))`). -/
theorem run_scan_one_result_per_pair
    (env : NetEnv) (cfg : ScannerConfig) (cidr : String) (ports : List Int)
    (hosts : List String) (order : List (String × Int))
    (hexp : expand_cidr cidr (some cfg.max_hosts) = .ok hosts)
    (hports : ports.Nodup)
    (hperm : order.Perm (scanPairs hosts ports)) :
    (run_scan_results env cfg order).length = hosts.length * ports.length ∧
    (∀ (h : String) (p : Int), (h, p) ∈ scanPairs hosts ports →
      ((run_scan_results env cfg order).filter
        (fun r => decide (r.ip = h ∧ r.port = p))).length = 1) ∧
    (∀ r ∈ run_scan_results env cfg order, r.ip ∈ hosts ∧ r.port ∈ ports) ∧
    run_scan env cfg cidr ports order = .ok (run_scan_results env cfg order) := by
  have hh : hosts.Nodup := expand_cidr_hosts_nodup hexp
  have hnd : (scanPairs hosts ports).Nodup := scanPairs_nodup hh hports
  refine ⟨?_, ?_, ?_, ?_⟩
  · rw [run_scan_results, List.length_map, hperm.length_eq, scanPairs_length]
  · intro h p hmem
    rw [run_scan_results, List.filter_map, List.length_map]
    have hq : (order.filter ((fun r => decide (r.ip = h ∧ r.port = p)) ∘
        (fun hp' => scan_host_port env cfg hp'.1 hp'.2))).length
        = order.countP (fun x => decide (x = (h, p))) := by
      rw [← List.countP_eq_length_filter]
      refine List.countP_congr ?_
      intro x _
      simp only [Function.comp_apply, decide_eq_true_eq]
      constructor
      · rintro ⟨h1, h2⟩
        have hx1 : x.1 = h := h1
        have hx2 : x.2 = p := h2
        exact Prod.ext hx1 hx2
      · rintro rfl
        exact ⟨rfl, rfl⟩
    rw [hq, hperm.countP_eq, countP_eq_one_of_nodup_mem hnd hmem]
  · intro r hr
    obtain ⟨hp', hin, rfl⟩ := List.mem_map.mp hr
    have hpair : hp' ∈ scanPairs hosts ports := hperm.subset hin
    have : (hp'.1, hp'.2) ∈ scanPairs hosts ports := by simpa using hpair
    exact mem_scanPairs.mp this
  · rw [run_scan, hexp]
    rfl

theorem run_scan_one_result_per_pair_witness :
    (run_scan_results
      ⟨fun _ _ _ => false, fun _ _ _ _ => none, fun _ _ _ _ => none,
        fun _ _ => ⟨2025, 1, 1, 0, 0, 0, 0⟩⟩
      ⟨2, 256, 200, 2048⟩
      [("10.0.0.2", 80), ("10.0.0.1", 22), ("10.0.0.2", 22), ("10.0.0.1", 80)]).length =
      2 * 2 :=
  (run_scan_one_result_per_pair
    ⟨fun _ _ _ => false, fun _ _ _ _ => none, fun _ _ _ _ => none,
      fun _ _ => ⟨2025, 1, 1, 0, 0, 0, 0⟩⟩
    ⟨2, 256, 200, 2048⟩ "10.0.0.0/30" [22, 80] ["10.0.0.1", "10.0.0.2"]
    [("10.0.0.2", 80), ("10.0.0.1", 22), ("10.0.0.2", 22), ("10.0.0.1", 80)]
    (by decide) (by decide) (by decide)).1

end MeshScanner
